import Mathlib

/-!
Shallow embedding of the completion-source candidate scan of
`src/src/handler/typeHierarchy.ts`: the method `Source.getResults`
(lines 307-344), the predicate `firstMatchFuzzy` (lines 351-356), the
constants of lines 154-158, and the `CompleteDone` handler of the
constructor (lines 201-203).  The helpers `caseMatch`, `fuzzyMatch` and
`getCharCodes` live in `src/util/fuzzy`, which is not part of the sources,
and the transliteration `unidecode` is an external npm package that the
specification treats as an opaque pure function; those are modelled from
the specification (`caseMatch`, `getCharCodes`, `fuzzyMatch` below) or
taken as a function parameter (`uni` below).

JS `Set`s of strings are modelled as `Finset String`; JS runtime errors
(calling `charCodeAt` on `undefined`) are modelled by `none` of an outer
`Option`; the wall clock and the cancellation token are modelled by the
oracle functions `elapsed` and `cancelled`, giving the clock offset
`Date.now() - start` and the value of `token.isCancellationRequested`
that the scan observes when the candidate counter has a given value.
-/

/-- `WORD_PREFIXES` (source line 154). -/
def WORD_PREFIXES : List Char := ['_', '$', '-']

/-- `WORD_PREFIXES_CODE` (source line 155). -/
def WORD_PREFIXES_CODE : List Nat := [95, 36, 45]

/-- `ASCII_END` (source line 156). -/
def ASCII_END : Nat := 128

/-- `MAX_DURATION` (source line 157): 20 under `global.__TEST__`, 80 otherwise. -/
def MAX_DURATION (testMode : Bool) : Nat := if testMode then 20 else 80

/-- `MAX_COUNT` (source line 158). -/
def MAX_COUNT : Nat := 50

/-- JS `s.charCodeAt(0)`: `none` for the empty string (where JS yields `NaN`). -/
def charCodeAt0 (s : String) : Option Nat := s.data.head?.map Char.toNat

/-- Modelled from the spec: ASCII case folding, identifying an uppercase
letter with its lowercase counterpart. -/
def toLowerCode (n : Nat) : Nat := if 65 ≤ n ∧ n ≤ 90 then n + 32 else n

/-- Modelled from the spec: `caseMatch` of `src/util/fuzzy` (not under the
sources): two character codes match if they are equal or if they are an
ASCII uppercase/lowercase pair. -/
def caseMatch (a b : Nat) : Bool := a == b || toLowerCode a == toLowerCode b

/-- Modelled from the spec: `getCharCodes` of `src/util/fuzzy` (not under the
sources): the input string as lowercase-normalized character codes. -/
def getCharCodes (s : String) : List Nat := s.data.map (fun c => toLowerCode c.toNat)

/-- Modelled from the spec: the case-insensitive in-order subsequence test
underlying `fuzzyMatch`. -/
def subseqMatch : List Nat → List Nat → Bool
  | [], _ => true
  | _ :: _, [] => false
  | a :: as, b :: bs => if caseMatch a b then subseqMatch as bs else subseqMatch (a :: as) bs

/-- Modelled from the spec: `fuzzyMatch` of `src/util/fuzzy` (not under the
sources): every input code appears, in order, among the candidate word's
character codes; empty candidates never match. -/
def fuzzyMatch (codes : List Nat) (word : String) : Bool :=
  !word.isEmpty && subseqMatch codes (word.data.map Char.toNat)

/-- The first character code of the input, `input.charCodeAt(0)` at source
line 312 (the scan assumes a non-empty input; `0` is a junk value for the
empty string, whose JS value would be `NaN`). -/
def inputFirstCode (input : String) : Nat := (charCodeAt0 input).getD 0

/-- The flag `ascii` of source line 314: `firstCode < ASCII_END`. -/
def inputAscii (input : String) : Bool := decide (inputFirstCode input < ASCII_END)

/-- Shallow embedding of `firstMatchFuzzy` (source lines 351-356).  `uni` is
the external `unidecode` transliteration.  `none` models the JS `TypeError`
of reading `charCodeAt` of `undefined`: the word is empty, or has exactly one
character and its leading prefix punctuation is skipped (`ch = word[1]`).
`charCodeAt(0)` of an empty transliteration result is JS `NaN`, which can
never satisfy `caseMatch`; that case is modelled by `false`. -/
def firstMatchFuzzy (uni : String → String) (firstCode : Nat) (ascii : Bool) (word : String) : Option Bool :=
  match word.data with
  | [] => none
  | c0 :: rest =>
    match (if ascii = true ∧ firstCode ∉ WORD_PREFIXES_CODE ∧ c0 ∈ WORD_PREFIXES then rest.head? else some c0) with
    | none => none
    | some ch =>
      if ascii = true ∧ ASCII_END < ch.toNat then
        match charCodeAt0 (uni (String.singleton ch)) with
        | none => some false
        | some n => some (caseMatch firstCode n)
      else
        some (caseMatch firstCode ch.toNat)

/-- The candidate-side argument of the `fuzzyMatch` call of `getResults`
(source line 333): the word itself, transliterated when the input is ASCII
and the word's leading character code exceeds `ASCII_END`.  `none` models
the JS error of reading `w[0].charCodeAt(0)` on an empty word (unreachable
from the scan, which skips words of length `≤ 1` first). -/
def fullMatchOn (uni : String → String) (codes : List Nat) (ascii : Bool) (w : String) : Option Bool :=
  if ascii = true then
    match w.data with
    | [] => none
    | c :: _ => some (fuzzyMatch codes (if ASCII_END < c.toNat then uni w else w))
  else
    some (fuzzyMatch codes w)

/-- The mutable data of one `getResults` scan: the candidate counter `i`
(source line 315), the caller's accumulator `items` and the per-session
negative-match memory `noMatchWords` (source line 180). -/
structure ScanState where
  i : Nat
  items : Finset String
  noMatchWords : Finset String
deriving DecidableEq

/-- The per-scan environment of `getResults`: the configuration flag
`firstMatch`, the derived flag `longInput` (`input.length > 1`), the
excluded word, the duration budget, the two matcher predicates as oracles
(`none` modelling a JS error), and the clock offset and token state
observed when the candidate counter has a given value. -/
structure ScanEnv where
  firstMatch : Bool
  longInput : Bool
  exclude : String
  maxDuration : Nat
  prefilterFn : String → Option Bool
  matcherFn : String → Option Bool
  elapsed : Nat → Nat
  cancelled : Nat → Bool

/-- Which of the two `return true` statements of `getResults` fired: the
periodic cancellation/budget check (source line 325) or the item-count cap
(source line 340). -/
inductive StopReason where
  | checkpoint
  | countCap
deriving DecidableEq

/-- The boolean value the TS `getResults` returns: `true` exactly when one
of its two early `return true` statements fired, `false` when every stream
was consumed. -/
def returnedEarly (o : Option StopReason) : Bool := o.isSome

/-- The condition of the periodic check (source lines 319-325) at counter
value `i`: the counter is a multiple of 100 and the token is observed
cancelled or the observed elapsed time exceeds the budget. -/
abbrev checkTrig (env : ScanEnv) (i : Nat) : Prop :=
  i % 100 = 0 ∧ (env.cancelled i = true ∨ env.maxDuration < env.elapsed i)

/-- The skip condition of source line 327 for candidate `w` in state `st`. -/
abbrev skippable (env : ScanEnv) (st : ScanState) (w : String) : Prop :=
  w.length ≤ 1 ∨ w = env.exclude ∨ w ∈ st.items ∨ w ∈ st.noMatchWords

/-- One iteration of the candidate loop of `getResults` (source lines
317-341): advance the counter, run the periodic check, apply the skip
condition, the cheap pre-filter (when `firstMatch` is set) and the full
matcher (when the input is longer than one character), recording failures
in `noMatchWords` and successes in `items`, and stop at the count cap.
The cooperative `waitImmediate` yield of lines 321-324 only suspends the
loop and updates `prev`; it changes neither the sets nor the returned
value and is not modelled. -/
def processWord (env : ScanEnv) (st : ScanState) (w : String) : Option (Option StopReason × ScanState) :=
  if checkTrig env (st.i + 1) then
    some (some StopReason.checkpoint, ⟨st.i + 1, st.items, st.noMatchWords⟩)
  else if skippable env st w then
    some (none, ⟨st.i + 1, st.items, st.noMatchWords⟩)
  else
    match (if env.firstMatch = true then env.prefilterFn w else some true) with
    | none => none
    | some pass1 =>
      if pass1 = false then
        some (none, ⟨st.i + 1, st.items, insert w st.noMatchWords⟩)
      else
        match (if env.longInput = true then env.matcherFn w else some true) with
        | none => none
        | some pass2 =>
          if pass2 = false then
            some (none, ⟨st.i + 1, st.items, insert w st.noMatchWords⟩)
          else
            some (if (insert w st.items).card = MAX_COUNT then some StopReason.countCap else none,
              ⟨st.i + 1, insert w st.items, st.noMatchWords⟩)

/-- The inner `for (let w of iterable)` loop of `getResults`: fold
`processWord` over one candidate stream, propagating an early `return true`
(reason `some _`) and a JS error (`none`). -/
def scanList (env : ScanEnv) : ScanState → List String → Option (Option StopReason × ScanState)
  | st, [] => some (none, st)
  | st, w :: ws =>
    match processWord env st w with
    | none => none
    | some (some r, st₁) => some (some r, st₁)
    | some (none, st₁) => scanList env st₁ ws

/-- The outer `for (let iterable of iterables)` loop of `getResults`;
falling through every stream reaches the final `return false` (reason
`none`, source line 343). -/
def scanStreams (env : ScanEnv) : ScanState → List (List String) → Option (Option StopReason × ScanState)
  | st, [] => some (none, st)
  | st, l :: ls =>
    match scanList env st l with
    | none => none
    | some (some r, st₁) => some (some r, st₁)
    | some (none, st₁) => scanStreams env st₁ ls

/-- Shallow embedding of `Source.getResults` (source lines 307-344).
Result `some (o, st)` means the TS function returns the boolean
`returnedEarly o` with final accumulator `st.items` and negative memory
`st.noMatchWords`; the outer `none` models a JS runtime error (never hit,
see the totality theorem for claim C10).  `uni` is the external
`unidecode`; `elapsed`/`cancelled` are the clock and token observations
indexed by the candidate counter; `testMode` selects the `global.__TEST__`
value of `MAX_DURATION`; `firstMatch` is the source configuration flag
read at line 308. -/
def getResults (uni : String → String) (elapsed : Nat → Nat) (cancelled : Nat → Bool)
    (testMode firstMatch : Bool) (iterables : List (List String))
    (input exclude : String) (items noMatchWords : Finset String) :
    Option (Option StopReason × ScanState) :=
  scanStreams
    { firstMatch := firstMatch
      longInput := decide (1 < input.length)
      exclude := exclude
      maxDuration := MAX_DURATION testMode
      prefilterFn := firstMatchFuzzy uni (inputFirstCode input) (inputAscii input)
      matcherFn := fullMatchOn uni (getCharCodes input) (inputAscii input)
      elapsed := elapsed
      cancelled := cancelled }
    ⟨0, items, noMatchWords⟩ iterables

/-- The `CompleteDone` handler registered by the `Source` constructor
(source lines 201-203): `this.noMatchWords.clear()`, the only clearing of
the negative-match memory. -/
def completeDoneClear (_noMatchWords : Finset String) : Finset String := ∅

/-- Case analysis of one `processWord` step: the counter always advances by
one, and the step is a periodic-check exit, a skip, a negative-cache write,
or an insertion into the accumulator. -/
theorem processWord_spec {env : ScanEnv} {st : ScanState} {w : String}
    {o : Option StopReason} {st' : ScanState}
    (h : processWord env st w = some (o, st')) :
    st'.i = st.i + 1 ∧
    ((checkTrig env (st.i + 1) ∧ o = some StopReason.checkpoint ∧
        st'.items = st.items ∧ st'.noMatchWords = st.noMatchWords) ∨
     (¬ checkTrig env (st.i + 1) ∧
       ((skippable env st w ∧ o = none ∧ st'.items = st.items ∧
           st'.noMatchWords = st.noMatchWords) ∨
        (¬ skippable env st w ∧
          ((o = none ∧ st'.items = st.items ∧ st'.noMatchWords = insert w st.noMatchWords ∧
             ((env.firstMatch = true ∧ env.prefilterFn w = some false) ∨
              (env.longInput = true ∧ env.matcherFn w = some false ∧
                (env.firstMatch = true → env.prefilterFn w = some true)))) ∨
           (st'.items = insert w st.items ∧ st'.noMatchWords = st.noMatchWords ∧
             (env.firstMatch = true → env.prefilterFn w = some true) ∧
             (env.longInput = true → env.matcherFn w = some true) ∧
             o = (if st'.items.card = MAX_COUNT then some StopReason.countCap else none))))))) := by
  unfold processWord at h
  by_cases h1 : checkTrig env (st.i + 1)
  · rw [if_pos h1] at h
    simp only [Option.some.injEq, Prod.mk.injEq] at h
    obtain ⟨ho, hst⟩ := h
    subst ho; subst hst
    exact ⟨rfl, Or.inl ⟨h1, rfl, rfl, rfl⟩⟩
  · rw [if_neg h1] at h
    by_cases h2 : skippable env st w
    · rw [if_pos h2] at h
      simp only [Option.some.injEq, Prod.mk.injEq] at h
      obtain ⟨ho, hst⟩ := h
      subst ho; subst hst
      exact ⟨rfl, Or.inr ⟨h1, Or.inl ⟨h2, rfl, rfl, rfl⟩⟩⟩
    · rw [if_neg h2] at h
      rcases hpf : (if env.firstMatch = true then env.prefilterFn w else some true) with _ | pass1
      · simp only [hpf] at h
        exact Option.noConfusion h
      · simp only [hpf] at h
        cases pass1 with
        | false =>
          rw [if_pos rfl] at h
          simp only [Option.some.injEq, Prod.mk.injEq] at h
          obtain ⟨ho, hst⟩ := h
          subst ho; subst hst
          refine ⟨rfl, Or.inr ⟨h1, Or.inr ⟨h2, Or.inl ⟨rfl, rfl, rfl, ?_⟩⟩⟩⟩
          by_cases hfm : env.firstMatch = true
          · rw [if_pos hfm] at hpf
            exact Or.inl ⟨hfm, hpf⟩
          · rw [if_neg hfm] at hpf
            simp at hpf
        | true =>
          rw [if_neg (by simp)] at h
          have hpre : env.firstMatch = true → env.prefilterFn w = some true := by
            intro hfm
            rwa [if_pos hfm] at hpf
          rcases hmf : (if env.longInput = true then env.matcherFn w else some true) with _ | pass2
          · simp only [hmf] at h
            exact Option.noConfusion h
          · simp only [hmf] at h
            cases pass2 with
            | false =>
              rw [if_pos rfl] at h
              simp only [Option.some.injEq, Prod.mk.injEq] at h
              obtain ⟨ho, hst⟩ := h
              subst ho; subst hst
              refine ⟨rfl, Or.inr ⟨h1, Or.inr ⟨h2, Or.inl ⟨rfl, rfl, rfl, ?_⟩⟩⟩⟩
              by_cases hli : env.longInput = true
              · rw [if_pos hli] at hmf
                exact Or.inr ⟨hli, hmf, hpre⟩
              · rw [if_neg hli] at hmf
                simp at hmf
            | true =>
              rw [if_neg (by simp)] at h
              have hmat : env.longInput = true → env.matcherFn w = some true := by
                intro hli
                rwa [if_pos hli] at hmf
              simp only [Option.some.injEq, Prod.mk.injEq] at h
              obtain ⟨ho, hst⟩ := h
              subst hst
              exact ⟨rfl, Or.inr ⟨h1, Or.inr ⟨h2, Or.inr ⟨rfl, rfl, hpre, hmat, ho.symm⟩⟩⟩⟩

/-- A `processWord` step advances the counter by one and never removes
anything from the accumulator or the negative memory. -/
theorem processWord_mono {env : ScanEnv} {st : ScanState} {w : String}
    {o : Option StopReason} {st' : ScanState}
    (h : processWord env st w = some (o, st')) :
    st'.i = st.i + 1 ∧ st.items ⊆ st'.items ∧ st.noMatchWords ⊆ st'.noMatchWords := by
  obtain ⟨hi, hc⟩ := processWord_spec h
  refine ⟨hi, ?_, ?_⟩ <;>
    rcases hc with ⟨-, -, h3, h4⟩ | ⟨-, ⟨-, -, h3, h4⟩ | ⟨-, ⟨-, h3, h4, -⟩ | ⟨h3, h4, -, -, -⟩⟩⟩ <;>
    simp [h3, h4, Finset.subset_insert]

/-- When both oracles are defined on words of length at least two,
`processWord` never signals a JS error. -/
theorem processWord_isSome (env : ScanEnv) (st : ScanState) (w : String)
    (hp : 2 ≤ w.length → (env.prefilterFn w).isSome = true)
    (hm : 2 ≤ w.length → (env.matcherFn w).isSome = true) :
    (processWord env st w).isSome = true := by
  rcases hres : processWord env st w with _ | r
  · exfalso
    unfold processWord at hres
    by_cases h1 : checkTrig env (st.i + 1)
    · rw [if_pos h1] at hres
      exact Option.noConfusion hres
    · rw [if_neg h1] at hres
      by_cases h2 : skippable env st w
      · rw [if_pos h2] at hres
        exact Option.noConfusion hres
      · rw [if_neg h2] at hres
        have hlen : 2 ≤ w.length := by
          rcases Nat.lt_or_ge w.length 2 with hl | hl
          · exact absurd (Or.inl (by omega)) h2
          · exact hl
        rcases hv : (if env.firstMatch = true then env.prefilterFn w else some true) with _ | p1
        · by_cases hfm : env.firstMatch = true
          · rw [if_pos hfm] at hv
            have := hp hlen
            rw [hv] at this
            exact absurd this (by simp)
          · rw [if_neg hfm] at hv
            exact Option.noConfusion hv
        · simp only [hv] at hres
          cases p1 with
          | false => rw [if_pos rfl] at hres; exact Option.noConfusion hres
          | true =>
            rw [if_neg (by simp)] at hres
            rcases hw : (if env.longInput = true then env.matcherFn w else some true) with _ | p2
            · by_cases hli : env.longInput = true
              · rw [if_pos hli] at hw
                have := hm hlen
                rw [hw] at this
                exact absurd this (by simp)
              · rw [if_neg hli] at hw
                exact Option.noConfusion hw
            · simp only [hw] at hres
              cases p2 with
              | false => rw [if_pos rfl] at hres; exact Option.noConfusion hres
              | true => rw [if_neg (by simp)] at hres; exact Option.noConfusion hres
  · rfl

/-- The inner loop advances the counter by at most the stream length and
never removes from either set. -/
theorem scanList_mono {env : ScanEnv} {ws : List String} {st : ScanState}
    {o : Option StopReason} {st' : ScanState}
    (h : scanList env st ws = some (o, st')) :
    st.i ≤ st'.i ∧ st'.i ≤ st.i + ws.length ∧ st.items ⊆ st'.items ∧
    st.noMatchWords ⊆ st'.noMatchWords := by
  induction ws generalizing st with
  | nil =>
    simp only [scanList, Option.some.injEq, Prod.mk.injEq] at h
    obtain ⟨-, rfl⟩ := h
    exact ⟨le_refl _, by simp, Finset.Subset.refl _, Finset.Subset.refl _⟩
  | cons w ws ih =>
    simp only [scanList] at h
    rcases hpw : processWord env st w with _ | ⟨o₁, st₁⟩
    · simp only [hpw] at h
      exact Option.noConfusion h
    · simp only [hpw] at h
      obtain ⟨hi, hsub1, hsub2⟩ := processWord_mono hpw
      cases o₁ with
      | some r =>
        simp only [Option.some.injEq, Prod.mk.injEq] at h
        obtain ⟨-, rfl⟩ := h
        refine ⟨by omega, ?_, hsub1, hsub2⟩
        simp only [List.length_cons]
        omega
      | none =>
        obtain ⟨h1, h2, h3, h4⟩ := ih h
        refine ⟨by omega, ?_, hsub1.trans h3, hsub2.trans h4⟩
        simp only [List.length_cons]
        omega

/-- If the inner loop falls through (reason `none`), every candidate of the
stream was counted. -/
theorem scanList_none {env : ScanEnv} {ws : List String} {st st' : ScanState}
    (h : scanList env st ws = some (none, st')) :
    st'.i = st.i + ws.length := by
  induction ws generalizing st with
  | nil =>
    simp only [scanList, Option.some.injEq, Prod.mk.injEq] at h
    obtain ⟨-, rfl⟩ := h
    simp
  | cons w ws ih =>
    simp only [scanList] at h
    rcases hpw : processWord env st w with _ | ⟨o₁, st₁⟩
    · simp only [hpw] at h
      exact Option.noConfusion h
    · simp only [hpw] at h
      cases o₁ with
      | some r =>
        simp only [Option.some.injEq, Prod.mk.injEq] at h
        exact Option.noConfusion h.1
      | none =>
        have hrec := ih h
        have hi := (processWord_mono hpw).1
        simp only [List.length_cons]
        omega

/-- Splitting the inner loop over an appended stream. -/
theorem scanList_append (env : ScanEnv) (st : ScanState) (xs ys : List String) :
    scanList env st (xs ++ ys) =
      match scanList env st xs with
      | none => none
      | some (some r, st₁) => some (some r, st₁)
      | some (none, st₁) => scanList env st₁ ys := by
  induction xs generalizing st with
  | nil => simp [scanList]
  | cons w xs ih =>
    simp only [List.cons_append, scanList]
    rcases hv : processWord env st w with _ | ⟨o₁, st₁⟩
    · rfl
    · cases o₁ with
      | some r => rfl
      | none => exact ih st₁

/-- The two nested loops of `getResults` are the single loop over the
concatenation of the streams: the counter, both sets and the stop reason
are oblivious to stream boundaries. -/
theorem scanStreams_eq_join (env : ScanEnv) (st : ScanState) (ls : List (List String)) :
    scanStreams env st ls = scanList env st ls.flatten := by
  induction ls generalizing st with
  | nil => rfl
  | cons l ls ih =>
    simp only [scanStreams, List.flatten_cons]
    rw [scanList_append]
    rcases hv : scanList env st l with _ | ⟨o₁, st₁⟩
    · rfl
    · cases o₁ with
      | some r => rfl
      | none => exact ih st₁

/-- A checkpoint exit of the inner loop happens at a counter where the
periodic condition held. -/
theorem scanList_checkpoint {env : ScanEnv} {ws : List String} {st st' : ScanState}
    (h : scanList env st ws = some (some StopReason.checkpoint, st')) :
    checkTrig env st'.i := by
  induction ws generalizing st with
  | nil =>
    simp only [scanList, Option.some.injEq, Prod.mk.injEq] at h
    exact Option.noConfusion h.1
  | cons w ws ih =>
    simp only [scanList] at h
    rcases hpw : processWord env st w with _ | ⟨o₁, st₁⟩
    · simp only [hpw] at h
      exact Option.noConfusion h
    · simp only [hpw] at h
      obtain ⟨hi, hc⟩ := processWord_spec hpw
      cases o₁ with
      | some r =>
        simp only [Option.some.injEq, Prod.mk.injEq] at h
        obtain ⟨rfl, rfl⟩ := h
        rcases hc with ⟨h1, -, -, -⟩ | ⟨-, hc⟩
        · rw [hi]; exact h1
        · rcases hc with ⟨-, ho, -, -⟩ | ⟨-, hc⟩
          · exact Option.noConfusion ho
          · rcases hc with ⟨ho, -, -, -⟩ | ⟨-, -, -, -, ho⟩
            · exact Option.noConfusion ho
            · split at ho
              · exact absurd (Option.some.inj ho) (by simp)
              · exact Option.noConfusion ho
      | none => exact ih h

/-- A count-cap exit of the inner loop leaves the accumulator at exactly
`MAX_COUNT` entries. -/
theorem scanList_countCap {env : ScanEnv} {ws : List String} {st st' : ScanState}
    (h : scanList env st ws = some (some StopReason.countCap, st')) :
    st'.items.card = MAX_COUNT := by
  induction ws generalizing st with
  | nil =>
    simp only [scanList, Option.some.injEq, Prod.mk.injEq] at h
    exact Option.noConfusion h.1
  | cons w ws ih =>
    simp only [scanList] at h
    rcases hpw : processWord env st w with _ | ⟨o₁, st₁⟩
    · simp only [hpw] at h
      exact Option.noConfusion h
    · simp only [hpw] at h
      obtain ⟨-, hc⟩ := processWord_spec hpw
      cases o₁ with
      | some r =>
        simp only [Option.some.injEq, Prod.mk.injEq] at h
        obtain ⟨rfl, rfl⟩ := h
        rcases hc with ⟨-, ho, -, -⟩ | ⟨-, hc⟩
        · exact absurd (Option.some.inj ho) (by simp)
        · rcases hc with ⟨-, ho, -, -⟩ | ⟨-, hc⟩
          · exact Option.noConfusion ho
          · rcases hc with ⟨ho, -, -, -⟩ | ⟨-, -, -, -, ho⟩
            · exact Option.noConfusion ho
            · split at ho
              · next hcard => exact hcard
              · exact Option.noConfusion ho
      | none => exact ih h

/-- The inner loop exits, via the periodic check, at the first counter value
at which the periodic condition holds: if some passed counter `j` satisfied
the condition, the loop stopped exactly there. -/
theorem scanList_firstTrig {env : ScanEnv} {ws : List String} {st : ScanState}
    {o : Option StopReason} {st' : ScanState}
    (h : scanList env st ws = some (o, st')) :
    ∀ j, st.i < j → j ≤ st'.i → checkTrig env j →
      o = some StopReason.checkpoint ∧ st'.i = j := by
  induction ws generalizing st with
  | nil =>
    simp only [scanList, Option.some.injEq, Prod.mk.injEq] at h
    obtain ⟨-, rfl⟩ := h
    intro j h1 h2 _
    omega
  | cons w ws ih =>
    simp only [scanList] at h
    rcases hpw : processWord env st w with _ | ⟨o₁, st₁⟩
    · simp only [hpw] at h
      exact Option.noConfusion h
    · simp only [hpw] at h
      obtain ⟨hi, hc⟩ := processWord_spec hpw
      cases o₁ with
      | some r =>
        simp only [Option.some.injEq, Prod.mk.injEq] at h
        obtain ⟨hr, rfl⟩ := h
        intro j hj1 hj2 hjt
        have hj : j = st.i + 1 := by omega
        subst hj
        rcases hc with ⟨-, ho, -, -⟩ | ⟨hnt, -⟩
        · exact ⟨hr.symm.trans ho, by omega⟩
        · exact absurd hjt hnt
      | none =>
        intro j hj1 hj2 hjt
        by_cases hj : j = st.i + 1
        · subst hj
          rcases hc with ⟨-, ho, -, -⟩ | ⟨hnt, -⟩
          · exact Option.noConfusion ho
          · exact absurd hjt hnt
        · exact ih h j (by omega) hj2 hjt

/-- Starting below the cap, the accumulator never passes `MAX_COUNT`, and
reaching `MAX_COUNT` forces the count-cap exit. -/
theorem scanList_cardLow {env : ScanEnv} {ws : List String} {st : ScanState}
    {o : Option StopReason} {st' : ScanState}
    (hlt : st.items.card < MAX_COUNT) (h : scanList env st ws = some (o, st')) :
    st'.items.card ≤ MAX_COUNT ∧
      (st'.items.card = MAX_COUNT → o = some StopReason.countCap) := by
  induction ws generalizing st with
  | nil =>
    simp only [scanList, Option.some.injEq, Prod.mk.injEq] at h
    obtain ⟨-, rfl⟩ := h
    exact ⟨le_of_lt hlt, fun hc => absurd hc (by omega)⟩
  | cons w ws ih =>
    simp only [scanList] at h
    rcases hpw : processWord env st w with _ | ⟨o₁, st₁⟩
    · simp only [hpw] at h
      exact Option.noConfusion h
    · simp only [hpw] at h
      obtain ⟨-, hc⟩ := processWord_spec hpw
      cases o₁ with
      | some r =>
        simp only [Option.some.injEq, Prod.mk.injEq] at h
        obtain ⟨hr, rfl⟩ := h
        rcases hc with ⟨-, -, h3, -⟩ | ⟨-, hc⟩
        · rw [h3]
          exact ⟨le_of_lt hlt, fun hc50 => absurd hc50 (by omega)⟩
        · rcases hc with ⟨-, -, h3, -⟩ | ⟨-, hc⟩
          · rw [h3]
            exact ⟨le_of_lt hlt, fun hc50 => absurd hc50 (by omega)⟩
          · rcases hc with ⟨-, h3, -, -⟩ | ⟨h3, -, -, -, ho⟩
            · rw [h3]
              exact ⟨le_of_lt hlt, fun hc50 => absurd hc50 (by omega)⟩
            · have hcard : st₁.items.card ≤ st.items.card + 1 := by
                rw [h3]
                exact Finset.card_insert_le _ _
              refine ⟨by omega, fun hc50 => ?_⟩
              rw [← hr, ho, if_pos hc50]
      | none =>
        have hlt₁ : st₁.items.card < MAX_COUNT := by
          rcases hc with ⟨-, ho, -, -⟩ | ⟨-, hc⟩
          · exact Option.noConfusion ho
          · rcases hc with ⟨-, -, h3, -⟩ | ⟨-, hc⟩
            · rw [h3]; exact hlt
            · rcases hc with ⟨-, h3, -, -⟩ | ⟨h3, -, -, -, ho⟩
              · rw [h3]; exact hlt
              · have hcard : st₁.items.card ≤ st.items.card + 1 := by
                  rw [h3]
                  exact Finset.card_insert_le _ _
                split at ho
                · exact Option.noConfusion ho
                · next hne => omega
        exact ih hlt₁ h

/-- Starting at or above the cap, the count-cap exit can never fire: the
equality test `items.size == MAX_COUNT` is never satisfied again. -/
theorem scanList_cardHigh {env : ScanEnv} {ws : List String} {st : ScanState}
    {o : Option StopReason} {st' : ScanState}
    (hge : MAX_COUNT ≤ st.items.card) (h : scanList env st ws = some (o, st')) :
    o ≠ some StopReason.countCap := by
  induction ws generalizing st with
  | nil =>
    simp only [scanList, Option.some.injEq, Prod.mk.injEq] at h
    obtain ⟨ho, -⟩ := h
    rw [← ho]
    simp
  | cons w ws ih =>
    simp only [scanList] at h
    rcases hpw : processWord env st w with _ | ⟨o₁, st₁⟩
    · simp only [hpw] at h
      exact Option.noConfusion h
    · simp only [hpw] at h
      obtain ⟨-, hc⟩ := processWord_spec hpw
      cases o₁ with
      | some r =>
        simp only [Option.some.injEq, Prod.mk.injEq] at h
        obtain ⟨hr, rfl⟩ := h
        rw [← hr]
        rcases hc with ⟨-, ho, -, -⟩ | ⟨-, hc⟩
        · rw [ho]; simp
        · rcases hc with ⟨-, ho, -, -⟩ | ⟨hns, hc⟩
          · exact Option.noConfusion ho
          · rcases hc with ⟨ho, -, -, -⟩ | ⟨h3, -, -, -, ho⟩
            · exact Option.noConfusion ho
            · have hmem : w ∉ st.items := fun hw => hns (Or.inr (Or.inr (Or.inl hw)))
              have hcard : st₁.items.card = st.items.card + 1 := by
                rw [h3]
                exact Finset.card_insert_of_not_mem hmem
              rw [ho, if_neg (by omega)]
              simp
      | none =>
        have hge₁ : MAX_COUNT ≤ st₁.items.card :=
          le_trans hge (Finset.card_le_card (processWord_mono hpw).2.1)
        exact ih hge₁ h

/-- Provenance of entries after the inner loop: anything new in the
accumulator or in the negative memory is a word of length at least two,
different from the excluded word, and was in neither set before. -/
theorem scanList_new {env : ScanEnv} {ws : List String} {st : ScanState}
    {o : Option StopReason} {st' : ScanState}
    (h : scanList env st ws = some (o, st')) :
    (∀ x ∈ st'.items, x ∈ st.items ∨
      (2 ≤ x.length ∧ x ≠ env.exclude ∧ x ∉ st.noMatchWords)) ∧
    (∀ x ∈ st'.noMatchWords, x ∈ st.noMatchWords ∨
      (2 ≤ x.length ∧ x ≠ env.exclude ∧ x ∉ st.items)) := by
  induction ws generalizing st with
  | nil =>
    simp only [scanList, Option.some.injEq, Prod.mk.injEq] at h
    obtain ⟨-, rfl⟩ := h
    exact ⟨fun x hx => Or.inl hx, fun x hx => Or.inl hx⟩
  | cons w ws ih =>
    simp only [scanList] at h
    rcases hpw : processWord env st w with _ | ⟨o₁, st₁⟩
    · simp only [hpw] at h
      exact Option.noConfusion h
    · simp only [hpw] at h
      obtain ⟨-, hc⟩ := processWord_spec hpw
      have hstep :
          (∀ x ∈ st₁.items, x ∈ st.items ∨
            (2 ≤ x.length ∧ x ≠ env.exclude ∧ x ∉ st.noMatchWords)) ∧
          (∀ x ∈ st₁.noMatchWords, x ∈ st.noMatchWords ∨
            (2 ≤ x.length ∧ x ≠ env.exclude ∧ x ∉ st.items)) := by
        rcases hc with ⟨-, -, h3, h4⟩ | ⟨-, ⟨-, -, h3, h4⟩ | ⟨hns, ⟨-, h3, h4, -⟩ | ⟨h3, h4, -, -, -⟩⟩⟩
        · rw [h3, h4]
          exact ⟨fun x hx => Or.inl hx, fun x hx => Or.inl hx⟩
        · rw [h3, h4]
          exact ⟨fun x hx => Or.inl hx, fun x hx => Or.inl hx⟩
        · rw [h3, h4]
          have hw2 : 2 ≤ w.length := by
            rcases Nat.lt_or_ge w.length 2 with hl | hl
            · exact absurd (Or.inl (by omega)) hns
            · exact hl
          have hwe : w ≠ env.exclude := fun he => hns (Or.inr (Or.inl he))
          have hwi : w ∉ st.items := fun hm => hns (Or.inr (Or.inr (Or.inl hm)))
          refine ⟨fun x hx => Or.inl hx, fun x hx => ?_⟩
          rcases Finset.mem_insert.mp hx with rfl | hx
          · exact Or.inr ⟨hw2, hwe, hwi⟩
          · exact Or.inl hx
        · rw [h3, h4]
          have hw2 : 2 ≤ w.length := by
            rcases Nat.lt_or_ge w.length 2 with hl | hl
            · exact absurd (Or.inl (by omega)) hns
            · exact hl
          have hwe : w ≠ env.exclude := fun he => hns (Or.inr (Or.inl he))
          have hwn : w ∉ st.noMatchWords := fun hm => hns (Or.inr (Or.inr (Or.inr hm)))
          refine ⟨fun x hx => ?_, fun x hx => Or.inl hx⟩
          rcases Finset.mem_insert.mp hx with rfl | hx
          · exact Or.inr ⟨hw2, hwe, hwn⟩
          · exact Or.inl hx
      cases o₁ with
      | some r =>
        simp only [Option.some.injEq, Prod.mk.injEq] at h
        obtain ⟨-, rfl⟩ := h
        exact hstep
      | none =>
        obtain ⟨ih1, ih2⟩ := ih h
        obtain ⟨hm1, hm2⟩ := (processWord_mono hpw).2
        constructor
        · intro x hx
          rcases ih1 x hx with hx1 | ⟨hx2, hx3, hx4⟩
          · rcases hstep.1 x hx1 with hx5 | ⟨hx6, hx7, hx8⟩
            · exact Or.inl hx5
            · exact Or.inr ⟨hx6, hx7, hx8⟩
          · exact Or.inr ⟨hx2, hx3, fun hm => hx4 (hm2 hm)⟩
        · intro x hx
          rcases ih2 x hx with hx1 | ⟨hx2, hx3, hx4⟩
          · rcases hstep.2 x hx1 with hx5 | ⟨hx6, hx7, hx8⟩
            · exact Or.inl hx5
            · exact Or.inr ⟨hx6, hx7, hx8⟩
          · exact Or.inr ⟨hx2, hx3, fun hm => hx4 (hm1 hm)⟩

/-- When `firstMatch` is set, every word the inner loop adds passed the
pre-filter oracle with `true`. -/
theorem scanList_prefilterTrue {env : ScanEnv} {ws : List String} {st : ScanState}
    {o : Option StopReason} {st' : ScanState}
    (hfm : env.firstMatch = true) (h : scanList env st ws = some (o, st')) :
    ∀ x ∈ st'.items, x ∈ st.items ∨ env.prefilterFn x = some true := by
  induction ws generalizing st with
  | nil =>
    simp only [scanList, Option.some.injEq, Prod.mk.injEq] at h
    obtain ⟨-, rfl⟩ := h
    exact fun x hx => Or.inl hx
  | cons w ws ih =>
    simp only [scanList] at h
    rcases hpw : processWord env st w with _ | ⟨o₁, st₁⟩
    · simp only [hpw] at h
      exact Option.noConfusion h
    · simp only [hpw] at h
      obtain ⟨-, hc⟩ := processWord_spec hpw
      have hstep : ∀ x ∈ st₁.items, x ∈ st.items ∨ env.prefilterFn x = some true := by
        rcases hc with ⟨-, -, h3, -⟩ | ⟨-, ⟨-, -, h3, -⟩ | ⟨-, ⟨-, h3, -, -⟩ | ⟨h3, -, hpre, -, -⟩⟩⟩
        · rw [h3]; exact fun x hx => Or.inl hx
        · rw [h3]; exact fun x hx => Or.inl hx
        · rw [h3]; exact fun x hx => Or.inl hx
        · rw [h3]
          intro x hx
          rcases Finset.mem_insert.mp hx with rfl | hx
          · exact Or.inr (hpre hfm)
          · exact Or.inl hx
      cases o₁ with
      | some r =>
        simp only [Option.some.injEq, Prod.mk.injEq] at h
        obtain ⟨-, rfl⟩ := h
        exact hstep
      | none =>
        intro x hx
        rcases ih h x hx with hx1 | hx2
        · exact hstep x hx1
        · exact Or.inr hx2

/-- Provenance of negative-memory entries: every word recorded by the inner
loop failed the pre-filter (with `firstMatch` set) or the full matcher
(with a long input). -/
theorem scanList_noMatchProv {env : ScanEnv} {ws : List String} {st : ScanState}
    {o : Option StopReason} {st' : ScanState}
    (h : scanList env st ws = some (o, st')) :
    ∀ x ∈ st'.noMatchWords, x ∈ st.noMatchWords ∨
      (env.firstMatch = true ∧ env.prefilterFn x = some false) ∨
      (env.longInput = true ∧ env.matcherFn x = some false) := by
  induction ws generalizing st with
  | nil =>
    simp only [scanList, Option.some.injEq, Prod.mk.injEq] at h
    obtain ⟨-, rfl⟩ := h
    exact fun x hx => Or.inl hx
  | cons w ws ih =>
    simp only [scanList] at h
    rcases hpw : processWord env st w with _ | ⟨o₁, st₁⟩
    · simp only [hpw] at h
      exact Option.noConfusion h
    · simp only [hpw] at h
      obtain ⟨-, hc⟩ := processWord_spec hpw
      have hstep : ∀ x ∈ st₁.noMatchWords, x ∈ st.noMatchWords ∨
          (env.firstMatch = true ∧ env.prefilterFn x = some false) ∨
          (env.longInput = true ∧ env.matcherFn x = some false) := by
        rcases hc with ⟨-, -, -, h4⟩ | ⟨-, ⟨-, -, -, h4⟩ | ⟨-, ⟨-, -, h4, hcause⟩ | ⟨-, h4, -, -, -⟩⟩⟩
        · rw [h4]; exact fun x hx => Or.inl hx
        · rw [h4]; exact fun x hx => Or.inl hx
        · rw [h4]
          intro x hx
          rcases Finset.mem_insert.mp hx with rfl | hx
          · rcases hcause with ⟨hf1, hf2⟩ | ⟨hl1, hl2, -⟩
            · exact Or.inr (Or.inl ⟨hf1, hf2⟩)
            · exact Or.inr (Or.inr ⟨hl1, hl2⟩)
          · exact Or.inl hx
        · rw [h4]; exact fun x hx => Or.inl hx
      cases o₁ with
      | some r =>
        simp only [Option.some.injEq, Prod.mk.injEq] at h
        obtain ⟨-, rfl⟩ := h
        exact hstep
      | none =>
        intro x hx
        rcases ih h x hx with hx1 | hx2
        · exact hstep x hx1
        · exact Or.inr hx2

/-- Positional bound: every word the inner loop adds occurs among the first
`st'.i - st.i` candidates of the stream. -/
theorem scanList_positional {env : ScanEnv} {ws : List String} {st : ScanState}
    {o : Option StopReason} {st' : ScanState}
    (h : scanList env st ws = some (o, st')) :
    ∀ x ∈ st'.items, x ∈ st.items ∨ x ∈ ws.take (st'.i - st.i) := by
  induction ws generalizing st with
  | nil =>
    simp only [scanList, Option.some.injEq, Prod.mk.injEq] at h
    obtain ⟨-, rfl⟩ := h
    exact fun x hx => Or.inl hx
  | cons w ws ih =>
    simp only [scanList] at h
    rcases hpw : processWord env st w with _ | ⟨o₁, st₁⟩
    · simp only [hpw] at h
      exact Option.noConfusion h
    · simp only [hpw] at h
      obtain ⟨hi, hc⟩ := processWord_spec hpw
      have hstep : ∀ x ∈ st₁.items, x ∈ st.items ∨ x = w := by
        rcases hc with ⟨-, -, h3, -⟩ | ⟨-, ⟨-, -, h3, -⟩ | ⟨-, ⟨-, h3, -, -⟩ | ⟨h3, -, -, -, -⟩⟩⟩
        · rw [h3]; exact fun x hx => Or.inl hx
        · rw [h3]; exact fun x hx => Or.inl hx
        · rw [h3]; exact fun x hx => Or.inl hx
        · rw [h3]
          intro x hx
          rcases Finset.mem_insert.mp hx with rfl | hx
          · exact Or.inr rfl
          · exact Or.inl hx
      cases o₁ with
      | some r =>
        simp only [Option.some.injEq, Prod.mk.injEq] at h
        obtain ⟨-, rfl⟩ := h
        intro x hx
        have hdiff : st₁.i - st.i = 1 := by omega
        rw [hdiff]
        rcases hstep x hx with hx1 | rfl
        · exact Or.inl hx1
        · exact Or.inr (by simp)
      | none =>
        intro x hx
        have hle := (scanList_mono h).1
        have hdiff : st'.i - st.i = (st'.i - st₁.i) + 1 := by omega
        rw [hdiff, List.take_succ_cons]
        rcases ih h x hx with hx1 | hx2
        · rcases hstep x hx1 with hx3 | rfl
          · exact Or.inl hx3
          · exact Or.inr (List.mem_cons_self _ _)
        · exact Or.inr (List.mem_cons_of_mem _ hx2)

/-- With a one-character input (no full-matcher stage), a completed scan of
the inner loop has added every candidate of length at least two that is not
the excluded word, not negatively cached, and passes the pre-filter. -/
theorem scanList_sufficient {env : ScanEnv} {ws : List String} {st st' : ScanState}
    (hlong : env.longInput = false) (h : scanList env st ws = some (none, st')) :
    ∀ w₀ ∈ ws, 2 ≤ w₀.length → w₀ ≠ env.exclude → w₀ ∉ st.noMatchWords →
      (env.firstMatch = true → env.prefilterFn w₀ = some true) → w₀ ∈ st'.items := by
  induction ws generalizing st with
  | nil => simp
  | cons w ws ih =>
    simp only [scanList] at h
    rcases hpw : processWord env st w with _ | ⟨o₁, st₁⟩
    · simp only [hpw] at h
      exact Option.noConfusion h
    · simp only [hpw] at h
      cases o₁ with
      | some r =>
        simp only [Option.some.injEq, Prod.mk.injEq] at h
        exact Option.noConfusion h.1
      | none =>
        obtain ⟨-, hc⟩ := processWord_spec hpw
        have hmono := scanList_mono h
        intro w₀ hw₀ h2 hne hnm hpf
        rcases List.mem_cons.mp hw₀ with rfl | htail
        · rcases hc with ⟨-, ho, -, -⟩ | ⟨-, hc⟩
          · exact Option.noConfusion ho
          · rcases hc with ⟨hsk, -, -, -⟩ | ⟨hns, hc⟩
            · rcases hsk with hl | he | hitem | hnm2
              · omega
              · exact absurd he hne
              · exact hmono.2.2.1 ((processWord_mono hpw).2.1 hitem)
              · exact absurd hnm2 hnm
            · rcases hc with ⟨-, -, -, hcause⟩ | ⟨h3, -, -, -, -⟩
              · rcases hcause with ⟨hf1, hf2⟩ | ⟨hl1, -, -⟩
                · rw [hpf hf1] at hf2
                  exact absurd (Option.some.inj hf2) (by simp)
                · rw [hlong] at hl1
                  exact Bool.noConfusion hl1
              · refine hmono.2.2.1 ?_
                rw [h3]
                exact Finset.mem_insert_self _ _
        · have hnm₁ : w₀ ∉ st₁.noMatchWords := by
            intro hmem
            rcases hc with ⟨-, -, -, h4⟩ | ⟨-, ⟨-, -, -, h4⟩ | ⟨-, ⟨-, -, h4, hcause⟩ | ⟨-, h4, -, -, -⟩⟩⟩
            · rw [h4] at hmem; exact hnm hmem
            · rw [h4] at hmem; exact hnm hmem
            · rw [h4] at hmem
              rcases Finset.mem_insert.mp hmem with rfl | hmem
              · rcases hcause with ⟨hf1, hf2⟩ | ⟨hl1, -, -⟩
                · rw [hpf hf1] at hf2
                  exact absurd (Option.some.inj hf2) (by simp)
                · rw [hlong] at hl1
                  exact Bool.noConfusion hl1
              · exact hnm hmem
            · rw [h4] at hmem; exact hnm hmem
          exact ih h w₀ htail h2 hne hnm₁ hpf

/-- One step never consults the oracles on a skippable word: oracle values
agreeing on the (non-skipped) current word give an identical step. -/
theorem processWord_congr (env : ScanEnv) (p' m' : String → Option Bool)
    (st : ScanState) (w : String)
    (hag : ¬ skippable env st w →
      (env.firstMatch = true → p' w = env.prefilterFn w) ∧
      (env.longInput = true → m' w = env.matcherFn w)) :
    processWord { env with prefilterFn := p', matcherFn := m' } st w =
      processWord env st w := by
  have hpfEq : ¬ skippable env st w →
      (if env.firstMatch = true then p' w else some true) =
      (if env.firstMatch = true then env.prefilterFn w else some true) := by
    intro hns
    by_cases hfm : env.firstMatch = true
    · rw [if_pos hfm, if_pos hfm, (hag hns).1 hfm]
    · rw [if_neg hfm, if_neg hfm]
  have hmfEq : ¬ skippable env st w →
      (if env.longInput = true then m' w else some true) =
      (if env.longInput = true then env.matcherFn w else some true) := by
    intro hns
    by_cases hli : env.longInput = true
    · rw [if_pos hli, if_pos hli, (hag hns).2 hli]
    · rw [if_neg hli, if_neg hli]
  unfold processWord
  by_cases h1 : checkTrig env (st.i + 1)
  · rw [if_pos h1, if_pos h1]
  · rw [if_neg h1, if_neg h1]
    by_cases h2 : skippable env st w
    · rw [if_pos h2, if_pos h2]
    · rw [if_neg h2, if_neg h2, hpfEq h2, hmfEq h2]

/-- The inner loop never consults the oracles on skipped words: oracles
agreeing outside the skip set scan identically. -/
theorem scanList_congr {env : ScanEnv} (p' m' : String → Option Bool)
    {ws : List String} {st : ScanState}
    (hagree : ∀ x, 2 ≤ x.length → x ≠ env.exclude → x ∉ st.items →
      x ∉ st.noMatchWords →
      (env.firstMatch = true → p' x = env.prefilterFn x) ∧
      (env.longInput = true → m' x = env.matcherFn x)) :
    scanList { env with prefilterFn := p', matcherFn := m' } st ws =
      scanList env st ws := by
  induction ws generalizing st with
  | nil => rfl
  | cons w ws ih =>
    simp only [scanList]
    have hpw := processWord_congr env p' m' st w (fun hns => by
      refine hagree w ?_ ?_ ?_ ?_
      · rcases Nat.lt_or_ge w.length 2 with hl | hl
        · exact absurd (Or.inl (by omega)) hns
        · exact hl
      · exact fun he => hns (Or.inr (Or.inl he))
      · exact fun hm => hns (Or.inr (Or.inr (Or.inl hm)))
      · exact fun hm => hns (Or.inr (Or.inr (Or.inr hm))))
    rw [hpw]
    rcases hv : processWord env st w with _ | ⟨o₁, st₁⟩
    · rfl
    · cases o₁ with
      | some r => rfl
      | none =>
        obtain ⟨-, hm1, hm2⟩ := processWord_mono hv
        exact ih (fun x h2 he hi hn =>
          hagree x h2 he (fun hx => hi (hm1 hx)) (fun hx => hn (hm2 hx)))

/-- The inner loop signals no JS error when both oracles are total on words
of length at least two. -/
theorem scanList_isSome {env : ScanEnv}
    (hp : ∀ x : String, 2 ≤ x.length → (env.prefilterFn x).isSome = true)
    (hm : ∀ x : String, 2 ≤ x.length → (env.matcherFn x).isSome = true)
    (st : ScanState) (ws : List String) :
    (scanList env st ws).isSome = true := by
  induction ws generalizing st with
  | nil => rfl
  | cons w ws ih =>
    simp only [scanList]
    have h0 := processWord_isSome env st w (hp w) (hm w)
    rcases hv : processWord env st w with _ | ⟨o₁, st₁⟩
    · rw [hv] at h0
      exact absurd h0 (by simp)
    · cases o₁ with
      | some r => rfl
      | none => exact ih st₁

/-- `firstMatchFuzzy` is total on words of length at least two: the
prefix-skip reads the second character only when it exists. -/
theorem firstMatchFuzzy_isSome {uni : String → String} {fc : Nat} {ascii : Bool}
    {w : String} (hw : 2 ≤ w.length) :
    (firstMatchFuzzy uni fc ascii w).isSome = true := by
  rcases hd : w.data with _ | ⟨c0, rest⟩
  · exfalso
    have hlen : w.length = w.data.length := rfl
    rw [hd] at hlen
    simp at hlen
    omega
  · cases rest with
    | nil =>
      exfalso
      have hlen : w.length = w.data.length := rfl
      rw [hd] at hlen
      simp at hlen
      omega
    | cons c1 rest =>
      simp only [firstMatchFuzzy, hd, List.head?_cons]
      by_cases hskip : ascii = true ∧ fc ∉ WORD_PREFIXES_CODE ∧ c0 ∈ WORD_PREFIXES
      · rw [if_pos hskip]
        show (if ascii = true ∧ ASCII_END < c1.toNat then
            match charCodeAt0 (uni (String.singleton c1)) with
            | none => some false
            | some n => some (caseMatch fc n)
          else some (caseMatch fc c1.toNat)).isSome = true
        by_cases ht : ascii = true ∧ ASCII_END < c1.toNat
        · rw [if_pos ht]
          rcases charCodeAt0 (uni (String.singleton c1)) with _ | n <;> rfl
        · rw [if_neg ht]
          rfl
      · rw [if_neg hskip]
        show (if ascii = true ∧ ASCII_END < c0.toNat then
            match charCodeAt0 (uni (String.singleton c0)) with
            | none => some false
            | some n => some (caseMatch fc n)
          else some (caseMatch fc c0.toNat)).isSome = true
        by_cases ht : ascii = true ∧ ASCII_END < c0.toNat
        · rw [if_pos ht]
          rcases charCodeAt0 (uni (String.singleton c0)) with _ | n <;> rfl
        · rw [if_neg ht]
          rfl

/-- `fullMatchOn` is total on words of length at least two. -/
theorem fullMatchOn_isSome {uni : String → String} {codes : List Nat}
    {ascii : Bool} {w : String} (hw : 2 ≤ w.length) :
    (fullMatchOn uni codes ascii w).isSome = true := by
  unfold fullMatchOn
  by_cases ha : ascii = true
  · rw [if_pos ha]
    rcases hd : w.data with _ | ⟨c, rest⟩
    · exfalso
      have hlen : w.length = w.data.length := rfl
      rw [hd] at hlen
      simp at hlen
      omega
    · simp only [hd]
      rfl
  · rw [if_neg ha]
    rfl

/-- `getResults` unfolded to the single inner loop over the concatenated
streams, with its environment spelled out. -/
theorem getResults_eq_scanList (uni : String → String) (elapsed : Nat → Nat)
    (cancelled : Nat → Bool) (testMode firstMatch : Bool)
    (iterables : List (List String)) (input exclude : String)
    (items noMatchWords : Finset String) :
    getResults uni elapsed cancelled testMode firstMatch iterables input
        exclude items noMatchWords =
      scanList
        { firstMatch := firstMatch
          longInput := decide (1 < input.length)
          exclude := exclude
          maxDuration := MAX_DURATION testMode
          prefilterFn := firstMatchFuzzy uni (inputFirstCode input) (inputAscii input)
          matcherFn := fullMatchOn uni (getCharCodes input) (inputAscii input)
          elapsed := elapsed
          cancelled := cancelled }
        ⟨0, items, noMatchWords⟩ iterables.flatten := by
  unfold getResults
  exact scanStreams_eq_join _ _ _

/-- A step whose counter is not a multiple of 100 reads neither the clock
nor the token. -/
theorem processWord_clock_congr (env : ScanEnv) (e' : Nat → Nat)
    (c' : Nat → Bool) (st : ScanState) (w : String)
    (hno : ¬ (st.i + 1) % 100 = 0) :
    processWord { env with elapsed := e', cancelled := c' } st w =
      processWord env st w := by
  unfold processWord
  have h1 : ¬ checkTrig { env with elapsed := e', cancelled := c' } (st.i + 1) :=
    fun hh => hno hh.1
  have h2 : ¬ checkTrig env (st.i + 1) := fun hh => hno hh.1
  rw [if_neg h1, if_neg h2]

/-- A stretch of the scan that crosses no multiple of 100 reads neither the
clock nor the token. -/
theorem scanList_clock_congr (env : ScanEnv) (e' : Nat → Nat) (c' : Nat → Bool)
    {ws : List String} {st : ScanState}
    (hno : ∀ j, st.i < j → j ≤ st.i + ws.length → ¬ j % 100 = 0) :
    scanList { env with elapsed := e', cancelled := c' } st ws =
      scanList env st ws := by
  induction ws generalizing st with
  | nil => rfl
  | cons w ws ih =>
    simp only [scanList]
    have hpw := processWord_clock_congr env e' c' st w
      (hno (st.i + 1) (by omega) (by simp only [List.length_cons]; omega))
    rw [hpw]
    rcases hv : processWord env st w with _ | ⟨o₁, st₁⟩
    · rfl
    · cases o₁ with
      | some r => rfl
      | none =>
        have hi := (processWord_mono hv).1
        exact ih (fun j hj1 hj2 =>
          hno j (by omega) (by simp only [List.length_cons]; omega))

/-- Claim C10: under the precondition that the word has length at least two,
`firstMatchFuzzy` is total — the prefix-skip step reads the word's second
character only when it exists and the function returns a boolean, with no
undefined-access error — and `getResults` establishes this precondition at
its only call sites, because every word of length at most one is skipped
before either predicate runs, so the error branch is unreachable during any
scan: `getResults` always returns a value. -/
theorem firstMatchFuzzy_total_scan_total (uni : String → String)
    (firstCode : Nat) (ascii : Bool) (word : String) (hw : 2 ≤ word.length) :
    (firstMatchFuzzy uni firstCode ascii word).isSome = true ∧
    ∀ (elapsed : Nat → Nat) (cancelled : Nat → Bool)
      (testMode firstMatch : Bool) (iterables : List (List String))
      (input exclude : String) (items noMatchWords : Finset String),
      (getResults uni elapsed cancelled testMode firstMatch iterables input
        exclude items noMatchWords).isSome = true := by
  refine ⟨firstMatchFuzzy_isSome hw, ?_⟩
  intro e c tm fm its input exclude items noMatchWords
  rw [getResults_eq_scanList]
  exact scanList_isSome (fun x hx => firstMatchFuzzy_isSome hx)
    (fun x hx => fullMatchOn_isSome hx) _ _

/-- Witness for C10 at a concrete input. -/
theorem firstMatchFuzzy_total_scan_total_w :
    (firstMatchFuzzy (fun s => s) 97 true "ab").isSome = true ∧
    (getResults (fun s => s) (fun _ => 0) (fun _ => false) false true
      [["ab"]] "a" "" ∅ ∅).isSome = true :=
  ⟨(firstMatchFuzzy_total_scan_total (fun s => s) 97 true "ab" (by decide)).1,
   (firstMatchFuzzy_total_scan_total (fun s => s) 97 true "ab" (by decide)).2
     (fun _ => 0) (fun _ => false) false true [["ab"]] "a" "" ∅ ∅⟩

/-- Claim C1: the boolean `getResults` returns (`returnedEarly o`)
characterises how the scan ended.  `false` (reason `none`) implies that
every candidate of every stream was examined, that no periodic check ever
observed cancellation or an exceeded budget, and that an accumulator that
started below the cap never reached it.  `true` came either from the
periodic check — then the final counter is a multiple of 100 at which the
token was observed cancelled or the observed elapsed time exceeded the
budget — or from the item-count cap — then the accumulator holds exactly
`MAX_COUNT` words.  (A cap hit on the very last candidate still returns
`true`, so `false` is equivalent to: all streams fully consumed with no cap
ever hit.) -/
theorem getResults_return_value (uni : String → String) (elapsed : Nat → Nat)
    (cancelled : Nat → Bool) (testMode firstMatch : Bool)
    (iterables : List (List String)) (input exclude : String)
    (items noMatchWords : Finset String) (o : Option StopReason)
    (st : ScanState) (_hlen : 1 ≤ input.length)
    (h : getResults uni elapsed cancelled testMode firstMatch iterables input
      exclude items noMatchWords = some (o, st)) :
    (returnedEarly o = false ↔ o = none) ∧
    (o = none → st.i = iterables.flatten.length) ∧
    (o = none → ∀ j, 0 < j → j ≤ st.i → j % 100 = 0 →
      cancelled j = false ∧ elapsed j ≤ MAX_DURATION testMode) ∧
    (o = none → items.card < MAX_COUNT → st.items.card < MAX_COUNT) ∧
    (o = some StopReason.checkpoint → st.i % 100 = 0 ∧
      (cancelled st.i = true ∨ MAX_DURATION testMode < elapsed st.i)) ∧
    (o = some StopReason.countCap → st.items.card = MAX_COUNT) := by
  rw [getResults_eq_scanList] at h
  refine ⟨?_, ?_, ?_, ?_, ?_, ?_⟩
  · cases o <;> simp [returnedEarly]
  · rintro rfl
    have := scanList_none h
    simpa using this
  · rintro rfl
    intro j hj0 hji hjm
    cases hc : cancelled j with
    | true =>
      obtain ⟨ho, -⟩ := scanList_firstTrig h j hj0 hji ⟨hjm, Or.inl hc⟩
      exact Option.noConfusion ho
    | false =>
      refine ⟨rfl, ?_⟩
      by_contra hgt
      push_neg at hgt
      obtain ⟨ho, -⟩ := scanList_firstTrig h j hj0 hji ⟨hjm, Or.inr hgt⟩
      exact Option.noConfusion ho
  · rintro rfl hlt
    obtain ⟨hle, hcap⟩ := scanList_cardLow hlt h
    rcases Nat.lt_or_ge st.items.card MAX_COUNT with h1 | h1
    · exact h1
    · exact absurd (hcap (le_antisymm hle h1)) (by simp)
  · rintro rfl
    exact scanList_checkpoint h
  · rintro rfl
    exact scanList_countCap h

/-- Witness for C1: the spec example stream, fully consumed, returns
`false` having examined all three candidates. -/
theorem getResults_return_value_w :
    (⟨3, {"far", "foo"}, {"bar"}⟩ : ScanState).i =
      [["foo", "far", "bar"]].flatten.length ∧
    returnedEarly none = false :=
  ⟨(getResults_return_value (fun s => s) (fun _ => 0) (fun _ => false) false
      true [["foo", "far", "bar"]] "f" "" ∅ ∅ none ⟨3, {"far", "foo"}, {"bar"}⟩
      (by decide) (by decide)).2.1 rfl, rfl⟩

/-- Claim C8: the duration budget is 80 in normal operation and 20 in test
mode; the budget and the token are consulted exactly at every 100th
candidate examined (counting every candidate regardless of match outcome):
a periodic-check exit happens only at a counter that is a multiple of 100
where the observed condition held, the scan stops at the first such
triggering counter, between checkpoints no time- or cancellation-based
exit occurs, and a scan over fewer than 100 candidates performs no such
check at all — its result is independent of the clock and the token. -/
theorem getResults_periodic_checks (uni : String → String)
    (elapsed : Nat → Nat) (cancelled : Nat → Bool) (testMode firstMatch : Bool)
    (iterables : List (List String)) (input exclude : String)
    (items noMatchWords : Finset String) (o : Option StopReason)
    (st : ScanState)
    (h : getResults uni elapsed cancelled testMode firstMatch iterables input
      exclude items noMatchWords = some (o, st)) :
    MAX_DURATION false = 80 ∧ MAX_DURATION true = 20 ∧
    (o = some StopReason.checkpoint → st.i % 100 = 0 ∧
      (cancelled st.i = true ∨ MAX_DURATION testMode < elapsed st.i)) ∧
    (∀ j, 0 < j → j ≤ st.i → j % 100 = 0 →
      (cancelled j = true ∨ MAX_DURATION testMode < elapsed j) →
      o = some StopReason.checkpoint ∧ st.i = j) ∧
    (iterables.flatten.length < 100 → ∀ (e' : Nat → Nat) (c' : Nat → Bool),
      getResults uni e' c' testMode firstMatch iterables input exclude items
        noMatchWords = some (o, st)) := by
  refine ⟨rfl, rfl, ?_, ?_, ?_⟩
  · rintro rfl
    rw [getResults_eq_scanList] at h
    exact scanList_checkpoint h
  · intro j hj0 hji hjm hcond
    rw [getResults_eq_scanList] at h
    exact scanList_firstTrig h j hj0 hji ⟨hjm, hcond⟩
  · intro hlt e' c'
    rw [getResults_eq_scanList] at h
    rw [getResults_eq_scanList]
    have hcongr := @scanList_clock_congr
      { firstMatch := firstMatch
        longInput := decide (1 < input.length)
        exclude := exclude
        maxDuration := MAX_DURATION testMode
        prefilterFn := firstMatchFuzzy uni (inputFirstCode input) (inputAscii input)
        matcherFn := fullMatchOn uni (getCharCodes input) (inputAscii input)
        elapsed := elapsed
        cancelled := cancelled } e' c' iterables.flatten ⟨0, items, noMatchWords⟩
      (fun j hj1 hj2 => by
        have h0 : (⟨0, items, noMatchWords⟩ : ScanState).i = 0 := rfl
        rw [h0] at hj1 hj2
        omega)
    exact hcongr.trans h

/-- Witness for C8 at a concrete input: a three-candidate scan performs no
periodic check, so replacing clock and token does not change its result. -/
theorem getResults_periodic_checks_w :
    getResults (fun s => s) (fun _ => 1000) (fun _ => true) false true
      [["foo", "far", "bar"]] "f" "" ∅ ∅ =
      some (none, ⟨3, {"far", "foo"}, {"bar"}⟩) :=
  (getResults_periodic_checks (fun s => s) (fun _ => 0) (fun _ => false) false
      true [["foo", "far", "bar"]] "f" "" ∅ ∅ none
      ⟨3, {"far", "foo"}, {"bar"}⟩ (by decide)).2.2.2.2 (by decide)
    (fun _ => 1000) (fun _ => true)

/-- Claim C4: for an accumulator starting below the cap, the scan only adds
words, the size never exceeds `MAX_COUNT = 50`, reaching `MAX_COUNT`
happens exactly through the count-cap exit — which stops the scan
immediately and returns `true` — and consequently at most
`MAX_COUNT - items.card` words are added in one scan. -/
theorem getResults_count_cap (uni : String → String) (elapsed : Nat → Nat)
    (cancelled : Nat → Bool) (testMode firstMatch : Bool)
    (iterables : List (List String)) (input exclude : String)
    (items noMatchWords : Finset String) (o : Option StopReason)
    (st : ScanState)
    (h : getResults uni elapsed cancelled testMode firstMatch iterables input
      exclude items noMatchWords = some (o, st))
    (hinit : items.card < MAX_COUNT) :
    MAX_COUNT = 50 ∧
    items ⊆ st.items ∧
    st.items.card ≤ MAX_COUNT ∧
    (st.items.card = MAX_COUNT → o = some StopReason.countCap) ∧
    (o = some StopReason.countCap →
      st.items.card = MAX_COUNT ∧ returnedEarly o = true) ∧
    (st.items \ items).card ≤ MAX_COUNT - items.card := by
  rw [getResults_eq_scanList] at h
  have hmono := scanList_mono h
  obtain ⟨hle, hcap⟩ := scanList_cardLow hinit h
  have hsub : items ⊆ st.items := hmono.2.2.1
  refine ⟨rfl, hsub, hle, hcap, ?_, ?_⟩
  · rintro rfl
    exact ⟨scanList_countCap h, rfl⟩
  · have hsd := Finset.card_sdiff hsub
    have hc2 := Finset.card_le_card hsub
    omega

/-- Witness for C4 at a concrete input. -/
theorem getResults_count_cap_w :
    ((⟨3, {"far", "foo"}, {"bar"}⟩ : ScanState).items).card ≤ MAX_COUNT :=
  (getResults_count_cap (fun s => s) (fun _ => 0) (fun _ => false) false true
      [["foo", "far", "bar"]] "f" "" ∅ ∅ none ⟨3, {"far", "foo"}, {"bar"}⟩
      (by decide) (by decide)).2.2.1

/-- Claim C9: the count-cap test is an equality comparison against exactly
`MAX_COUNT`, made immediately after each insertion, so with an accumulator
pre-seeded with `MAX_COUNT` or more words the cap can never trigger: the
scan stops only on the periodic check (time budget or cancellation) or by
exhausting all streams, and still only adds words. -/
theorem getResults_cap_equality (uni : String → String) (elapsed : Nat → Nat)
    (cancelled : Nat → Bool) (testMode firstMatch : Bool)
    (iterables : List (List String)) (input exclude : String)
    (items noMatchWords : Finset String) (o : Option StopReason)
    (st : ScanState)
    (h : getResults uni elapsed cancelled testMode firstMatch iterables input
      exclude items noMatchWords = some (o, st))
    (hinit : MAX_COUNT ≤ items.card) :
    o ≠ some StopReason.countCap ∧
    (o = none ∨ o = some StopReason.checkpoint) ∧
    items ⊆ st.items := by
  rw [getResults_eq_scanList] at h
  have hne := scanList_cardHigh hinit h
  refine ⟨hne, ?_, (scanList_mono h).2.2.1⟩
  cases o with
  | none => exact Or.inl rfl
  | some r =>
    cases r with
    | checkpoint => exact Or.inr rfl
    | countCap => exact absurd rfl hne

/-- Witness for C9: an accumulator pre-seeded with 50 words. -/
theorem getResults_cap_equality_w :
    (none : Option StopReason) ≠ some StopReason.countCap :=
  (getResults_cap_equality (fun s => s) (fun _ => 0) (fun _ => false) false
      true [] "a" "" ((List.range 50).map (fun n => toString n)).toFinset ∅
      none ⟨0, ((List.range 50).map (fun n => toString n)).toFinset, ∅⟩
      rfl (by decide)).1

/-- Counterexample to claim C5 as stated: with a token pre-signaled as
cancelled but only one candidate supplied, the scan never reaches a
periodic check (the first one would occur at the 100th candidate), fully
consumes the stream, adds the matching candidate and returns `false` — not
`true` as the claim requires for every pre-cancelled token. -/
theorem getResults_precancelled_cex :
    (∀ k : Nat, (fun _ : Nat => true) k = true) ∧
    getResults (fun s => s) (fun _ => 0) (fun _ => true) false true
      [["ab"]] "a" "" ∅ ∅ = some (none, ⟨1, {"ab"}, ∅⟩) ∧
    returnedEarly none = false :=
  ⟨fun _ => rfl, by decide, rfl⟩

/-- Claim C5 (amended): for a token pre-signaled as cancelled, provided the
scan reaches its first periodic check — at least 100 candidates are
supplied — `getResults` returns `true`, stops by the 100th candidate,
retains every initial accumulator entry, and gains at most words drawn from
the first 100 candidates (those up to the first periodic check).  With
fewer than 100 candidates no periodic check ever runs, so cancellation is
never observed and the claim's unconditional "returns `true`" fails: the
counterexample's scan consumes its single candidate and returns `false`
(such a scan may still return `true` through the count cap). -/
theorem getResults_precancelled (uni : String → String) (elapsed : Nat → Nat)
    (cancelled : Nat → Bool) (testMode firstMatch : Bool)
    (iterables : List (List String)) (input exclude : String)
    (items noMatchWords : Finset String) (o : Option StopReason)
    (st : ScanState)
    (h : getResults uni elapsed cancelled testMode firstMatch iterables input
      exclude items noMatchWords = some (o, st))
    (hc : ∀ k, cancelled k = true)
    (hlen : 100 ≤ iterables.flatten.length) :
    returnedEarly o = true ∧ st.i ≤ 100 ∧ items ⊆ st.items ∧
    ∀ x ∈ st.items, x ∈ items ∨ x ∈ iterables.flatten.take 100 := by
  rw [getResults_eq_scanList] at h
  have hmono := scanList_mono h
  have h0i : (⟨0, items, noMatchWords⟩ : ScanState).i = 0 := rfl
  have hle : st.i ≤ 100 := by
    by_contra hgt
    push_neg at hgt
    obtain ⟨-, hi⟩ := scanList_firstTrig h 100 (by rw [h0i]; omega) (by omega)
      ⟨by decide, Or.inl (hc 100)⟩
    omega
  have hearly : o ≠ none := by
    rintro rfl
    have hlen2 := scanList_none h
    rw [h0i] at hlen2
    obtain ⟨ho, -⟩ := scanList_firstTrig h 100 (by rw [h0i]; omega) (by omega)
      ⟨by decide, Or.inl (hc 100)⟩
    exact Option.noConfusion ho
  have hret : returnedEarly o = true := by
    cases o with
    | none => exact absurd rfl hearly
    | some r => rfl
  refine ⟨hret, hle, hmono.2.2.1, ?_⟩
  intro x hx
  have hpos := scanList_positional h x hx
  rw [h0i] at hpos
  rcases hpos with h1 | h2
  · exact Or.inl h1
  · right
    have h2' : (iterables.flatten.take 100).take (st.i - 0) =
        iterables.flatten.take (st.i - 0) := by
      rw [List.take_take]
      congr 1
      omega
    rw [← h2'] at h2
    exact List.take_subset _ _ h2

/-- Witness for the amended C5: one hundred copies of a non-matching
candidate with a pre-cancelled token — the scan stops at the checkpoint of
candidate 100 and returns `true`. -/
theorem getResults_precancelled_w :
    returnedEarly (some StopReason.checkpoint) = true ∧
    (⟨100, ∅, {"zz"}⟩ : ScanState).i ≤ 100 :=
  ⟨(getResults_precancelled (fun s => s) (fun _ => 0) (fun _ => true) false
      true [List.replicate 100 "zz"] "a" "" ∅ ∅ (some StopReason.checkpoint)
      ⟨100, ∅, {"zz"}⟩ (by decide) (fun _ => rfl) (by decide)).1,
   (getResults_precancelled (fun s => s) (fun _ => 0) (fun _ => true) false
      true [List.replicate 100 "zz"] "a" "" ∅ ∅ (some StopReason.checkpoint)
      ⟨100, ∅, {"zz"}⟩ (by decide) (fun _ => rfl) (by decide)).2.1⟩

/-- Claim C6: during a scan the negative-match memory only grows — it is
never cleared or shrunk; a word in the memory at the start of a scan (or,
since the statement holds from every intermediate state, from the moment it
is recorded mid-scan, and across later scans that start from the resulting
state) is never added to the accumulator; the scan result does not depend
on either matcher oracle's values at words in the memory, so cached words
are never re-tested; and the memory is emptied by the `CompleteDone`
session-end handler, the only clearing operation. -/
theorem noMatchWords_negative_cache (env : ScanEnv) (st : ScanState)
    (ls : List (List String)) (o : Option StopReason) (st' : ScanState)
    (h : scanStreams env st ls = some (o, st')) :
    st.noMatchWords ⊆ st'.noMatchWords ∧
    (∀ w ∈ st.noMatchWords, w ∈ st'.items → w ∈ st.items) ∧
    (∀ p' m' : String → Option Bool,
      (∀ x, x ∉ st.noMatchWords → p' x = env.prefilterFn x ∧ m' x = env.matcherFn x) →
      scanStreams { env with prefilterFn := p', matcherFn := m' } st ls =
        scanStreams env st ls) ∧
    (∀ s : Finset String, completeDoneClear s = ∅) := by
  rw [scanStreams_eq_join] at h
  have hmono := scanList_mono h
  refine ⟨hmono.2.2.2, ?_, ?_, fun s => rfl⟩
  · intro w hw hw'
    rcases (scanList_new h).1 w hw' with h1 | ⟨-, -, h3⟩
    · exact h1
    · exact absurd hw h3
  · intro p' m' hag
    rw [scanStreams_eq_join, scanStreams_eq_join]
    exact scanList_congr p' m' (fun x h2 he hi hn =>
      ⟨fun _ => (hag x hn).1, fun _ => (hag x hn).2⟩)

/-- Witness for C6 at a concrete scan: a cached word is skipped and the
memory is retained. -/
theorem noMatchWords_negative_cache_w :
    (⟨0, ∅, {"zz"}⟩ : ScanState).noMatchWords ⊆
      (⟨1, ∅, {"zz"}⟩ : ScanState).noMatchWords :=
  (noMatchWords_negative_cache
    ⟨true, false, "", 80, fun _ => some true, fun _ => some true,
      fun _ => 0, fun _ => false⟩
    ⟨0, ∅, {"zz"}⟩ [["zz"]] none ⟨1, ∅, {"zz"}⟩ (by decide)).1

/-- Claim C7: a skipped candidate — length at most one, equal to the
excluded word, already in the accumulator, or in the negative memory —
causes no write to either set and no matcher invocation.  Consequently
short words and the excluded word are never added to either set by the
scan, words already accumulated are never negatively cached, cached words
are never accumulated, and the scan result is independent of the oracle
values at skipped words. -/
theorem getResults_skip_rules (uni : String → String) (elapsed : Nat → Nat)
    (cancelled : Nat → Bool) (testMode firstMatch : Bool)
    (iterables : List (List String)) (input exclude : String)
    (items noMatchWords : Finset String) (o : Option StopReason)
    (st : ScanState)
    (h : getResults uni elapsed cancelled testMode firstMatch iterables input
      exclude items noMatchWords = some (o, st)) :
    (∀ w, w.length ≤ 1 ∨ w = exclude →
      (w ∈ st.items ↔ w ∈ items) ∧ (w ∈ st.noMatchWords ↔ w ∈ noMatchWords)) ∧
    (∀ w ∈ items, (w ∈ st.noMatchWords ↔ w ∈ noMatchWords)) ∧
    (∀ w ∈ noMatchWords, (w ∈ st.items ↔ w ∈ items)) ∧
    (∀ (env : ScanEnv) (st₀ : ScanState) (ls : List (List String))
        (p' m' : String → Option Bool),
      (∀ x, 2 ≤ x.length → x ≠ env.exclude → x ∉ st₀.items →
        x ∉ st₀.noMatchWords →
        p' x = env.prefilterFn x ∧ m' x = env.matcherFn x) →
      scanStreams { env with prefilterFn := p', matcherFn := m' } st₀ ls =
        scanStreams env st₀ ls) := by
  rw [getResults_eq_scanList] at h
  have hmono := scanList_mono h
  have hnew := scanList_new h
  refine ⟨?_, ?_, ?_, ?_⟩
  · intro w hw
    constructor
    · constructor
      · intro hmem
        rcases hnew.1 w hmem with h1 | ⟨h2, h3, -⟩
        · exact h1
        · rcases hw with hw | hw
          · omega
          · exact absurd hw h3
      · exact fun hm => hmono.2.2.1 hm
    · constructor
      · intro hmem
        rcases hnew.2 w hmem with h1 | ⟨h2, h3, -⟩
        · exact h1
        · rcases hw with hw | hw
          · omega
          · exact absurd hw h3
      · exact fun hm => hmono.2.2.2 hm
  · intro w hw
    constructor
    · intro hmem
      rcases hnew.2 w hmem with h1 | ⟨-, -, h3⟩
      · exact h1
      · exact absurd hw h3
    · exact fun hm => hmono.2.2.2 hm
  · intro w hw
    constructor
    · intro hmem
      rcases hnew.1 w hmem with h1 | ⟨-, -, h3⟩
      · exact h1
      · exact absurd hw h3
    · exact fun hm => hmono.2.2.1 hm
  · intro env st₀ ls p' m' hag
    rw [scanStreams_eq_join, scanStreams_eq_join]
    exact scanList_congr p' m' (fun x h2 he hi hn =>
      ⟨fun _ => (hag x h2 he hi hn).1, fun _ => (hag x h2 he hi hn).2⟩)

/-- Witness for C7 at a concrete scan: the excluded word `"foo"` is never
added even though it would match. -/
theorem getResults_skip_rules_w :
    "foo" ∈ (⟨2, {"far"}, ∅⟩ : ScanState).items ↔ "foo" ∈ (∅ : Finset String) :=
  ((getResults_skip_rules (fun s => s) (fun _ => 0) (fun _ => false) false
      true [["foo", "far"]] "f" "foo" ∅ ∅ none ⟨2, {"far"}, ∅⟩
      (by decide)).1 "foo" (Or.inr rfl)).1

/-- Counterexample to claim C2 as stated: with the source's `firstMatch`
configuration flag disabled and a one-character input, a candidate for
which `firstMatchFuzzy` returns `false` is still added to the accumulator,
so "added iff the pre-filter returns true" fails for such scans. -/
theorem getResults_len1_cex :
    getResults (fun s => s) (fun _ => 0) (fun _ => false) false false
      [["zz"]] "a" "" ∅ ∅ = some (none, ⟨1, {"zz"}, ∅⟩) ∧
    firstMatchFuzzy (fun s => s) (inputFirstCode "a") (inputAscii "a") "zz" =
      some false ∧
    "zz" ∈ (⟨1, {"zz"}, ∅⟩ : ScanState).items := by decide

/-- Claim C2 (amended): for an input of length exactly one the full
subsequence matcher is never invoked — a scan with the long-input stage
disabled is independent of the matcher oracle — and, when the `firstMatch`
mode is active, a candidate is added iff `firstMatchFuzzy` accepts it:
every word the scan adds passed the pre-filter with `true`, and a scan
that runs to completion has added every candidate that is not skipped
(length at least two, not the excluded word, not already cached) and
passes the pre-filter.  With `firstMatch` disabled, eligible candidates
are added with no filtering at all (see the counterexample). -/
theorem getResults_len1 (uni : String → String) (elapsed : Nat → Nat)
    (cancelled : Nat → Bool) (testMode firstMatch : Bool)
    (iterables : List (List String)) (input exclude : String)
    (items noMatchWords : Finset String) (o : Option StopReason)
    (st : ScanState) (hlen : input.length = 1)
    (h : getResults uni elapsed cancelled testMode firstMatch iterables input
      exclude items noMatchWords = some (o, st)) :
    (firstMatch = true → ∀ x ∈ st.items, x ∈ items ∨
      firstMatchFuzzy uni (inputFirstCode input) (inputAscii input) x =
        some true) ∧
    (firstMatch = true → o = none → ∀ w ∈ iterables.flatten, 2 ≤ w.length →
      w ≠ exclude → w ∉ noMatchWords →
      firstMatchFuzzy uni (inputFirstCode input) (inputAscii input) w =
        some true →
      w ∈ st.items) ∧
    (∀ env : ScanEnv, env.longInput = false →
      ∀ (st₀ : ScanState) (ls : List (List String)) (m' : String → Option Bool),
      scanStreams { env with matcherFn := m' } st₀ ls =
        scanStreams env st₀ ls) := by
  rw [getResults_eq_scanList] at h
  have hli : decide (1 < input.length) = false := by simp [hlen]
  refine ⟨?_, ?_, ?_⟩
  · intro hfm
    exact scanList_prefilterTrue hfm h
  · intro hfm ho
    subst ho
    intro w hw h2 hne hnm hpf
    exact scanList_sufficient hli h w hw h2 hne hnm (fun _ => hpf)
  · intro env hl st₀ ls m'
    rw [scanStreams_eq_join, scanStreams_eq_join]
    exact @scanList_congr env env.prefilterFn m' ls.flatten st₀
      (fun x h2 he hi hn =>
        ⟨fun _ => rfl, fun hcontra => absurd hcontra (by simp [hl])⟩)

/-- Witness for the amended C2: in the one-character spec example, the
added word `"foo"` passed the pre-filter. -/
theorem getResults_len1_w :
    "foo" ∈ (∅ : Finset String) ∨
    firstMatchFuzzy (fun s => s) (inputFirstCode "f") (inputAscii "f") "foo" =
      some true :=
  (getResults_len1 (fun s => s) (fun _ => 0) (fun _ => false) false true
      [["foo", "far", "bar"]] "f" "" ∅ ∅ none ⟨3, {"far", "foo"}, {"bar"}⟩
      (by decide) (by decide)).1 rfl "foo" (by decide)

/-- Counterexample to claim C3 as stated: the prefix-punctuation skip also
requires the input to be ASCII, a condition the claim omits.  For the
input consisting of the single character with code 1040 (not one of the
codes 95, 36, 45) and the candidate underscore-then-1040, the claim
predicts a comparison against the candidate's second character — which
would succeed — but `firstMatchFuzzy`, called exactly as `getResults`
calls it (`ascii = false`), performs no skip, compares against the
underscore, and returns `false`. -/
theorem firstMatchFuzzy_skip_cex :
    (1040 : Nat) ∉ WORD_PREFIXES_CODE ∧
    '_' ∈ WORD_PREFIXES ∧
    inputFirstCode (String.mk [Char.ofNat 1040]) = 1040 ∧
    inputAscii (String.mk [Char.ofNat 1040]) = false ∧
    caseMatch 1040 (Char.ofNat 1040).toNat = true ∧
    firstMatchFuzzy (fun s => s) 1040 false
      (String.mk ['_', Char.ofNat 1040]) = some false := by decide

/-- Claim C3 (amended): for a candidate word whose first character is one
of the `WORD_PREFIXES` and which has a second character, when the `ascii`
flag is set — the input's first code is below `ASCII_END`, a condition the
original claim omits (see the counterexample) — and that code is not one of
`WORD_PREFIXES_CODE`, `firstMatchFuzzy` compares the input code against the
candidate's second character (stated here for an ASCII second character,
where no transliteration applies); when the input's first code is one of
`WORD_PREFIXES_CODE`, no skip occurs and the comparison uses the
candidate's first character. -/
theorem firstMatchFuzzy_skip (uni : String → String) (firstCode : Nat)
    (c0 c1 : Char) (rest : List Char) (w : String)
    (hw : w.data = c0 :: c1 :: rest) (hc0 : c0 ∈ WORD_PREFIXES) :
    (firstCode ∉ WORD_PREFIXES_CODE → c1.toNat ≤ ASCII_END →
      firstMatchFuzzy uni firstCode true w =
        some (caseMatch firstCode c1.toNat)) ∧
    (firstCode ∈ WORD_PREFIXES_CODE →
      firstMatchFuzzy uni firstCode true w =
        some (caseMatch firstCode c0.toNat)) := by
  have hc0ascii : ¬ (True ∧ ASCII_END < c0.toNat) := by
    simp only [WORD_PREFIXES, List.mem_cons, List.not_mem_nil, or_false] at hc0
    rcases hc0 with rfl | rfl | rfl <;> decide
  constructor
  · intro hnot hle
    simp only [firstMatchFuzzy, hw, List.head?_cons]
    rw [if_pos ⟨trivial, hnot, hc0⟩]
    show (if True ∧ ASCII_END < c1.toNat then
        match charCodeAt0 (uni (String.singleton c1)) with
        | none => some false
        | some n => some (caseMatch firstCode n)
      else some (caseMatch firstCode c1.toNat)) =
      some (caseMatch firstCode c1.toNat)
    rw [if_neg (fun hcon => absurd hcon.2 (by omega))]
  · intro hin
    simp only [firstMatchFuzzy, hw, List.head?_cons]
    rw [if_neg (fun hcon => hcon.2.1 hin)]
    show (if True ∧ ASCII_END < c0.toNat then
        match charCodeAt0 (uni (String.singleton c0)) with
        | none => some false
        | some n => some (caseMatch firstCode n)
      else some (caseMatch firstCode c0.toNat)) =
      some (caseMatch firstCode c0.toNat)
    rw [if_neg hc0ascii]

/-- Witness for the amended C3: candidate `"_t"`; input `"t"` (code 116)
skips the underscore and matches the second character, while input `"_"`
(code 95) performs no skip and matches the underscore itself. -/
theorem firstMatchFuzzy_skip_w :
    firstMatchFuzzy (fun s => s) 116 true "_t" = some true ∧
    firstMatchFuzzy (fun s => s) 95 true "_t" = some true := by
  constructor
  · have h := (firstMatchFuzzy_skip (fun s => s) 116 '_' 't' [] "_t"
      (by decide) (by decide)).1 (by decide) (by decide)
    rw [h]
    decide
  · have h := (firstMatchFuzzy_skip (fun s => s) 95 '_' 't' [] "_t"
      (by decide) (by decide)).2 (by decide)
    rw [h]
    decide
